import Mathlib

/-!
# Verification of the dotini INI parser

A shallow embedding of the `dotini` library (`src/lib.rs`): an INI parser
built from a pest grammar (`ini.pest`) and a tree reducer that folds the
parse tree into a two-level mapping, section name → (property name →
property value).

The grammar file `ini.pest` is not part of the sources given here, so the
tokenizer is modelled from the specification's grammar description
(spec §4.1); the reducer, the error type and the public operations are
translated from `src/lib.rs` directly.

Rust's `HashMap<String, HashMap<String, String>>` is modelled as an
association list with unique keys: `insert` replaces the first binding of
an existing key in place and appends a fresh binding otherwise, and
`entry(k).or_default()` is lookup-or-create.  Insertion order is carried by
the list but is irrelevant to every statement below, which goes through
`alFind` lookups or canonical outputs.
-/

/-- The error enum `InIParseError` of `src/lib.rs` (lines 33–39), one
constructor per variant, each carrying its diagnostic payload. -/
inductive InIParseError where
  | FileReadError (msg : String)
  | UnsuccessfulParse (msg : String)
  | Finished
  | Unreachable
  deriving DecidableEq, Repr

/-- The node kinds (`Rule`) that pest derives from the grammar: the rules
named by the reducer's `match` (`section`, `property`, `EOI`) plus the
auxiliary grammar rules (`file`, `name`, `value`) that exist in the `Rule`
enum but are never produced as children of a `file` node.  `sec` stands for
the grammar rule `section` (a Lean keyword). -/
inductive Rule where
  | file
  | sec
  | property
  | name
  | value
  | EOI
  deriving DecidableEq, Repr

/-- A node of the parse tree as the reducer consumes it: its rule together
with the list of captured sub-strings that `into_inner` yields (`[name]`
for a section, `[name, value]` for a property, `[]` for `EOI`). -/
structure Node where
  rule : Rule
  inner : List String
  deriving DecidableEq, Repr

/-- First value bound to `k`, modelling `HashMap::get`. -/
def alFind {α : Type} (m : List (String × α)) (k : String) : Option α :=
  match m with
  | [] => none
  | (k2, v) :: rest => if k2 = k then some v else alFind rest k

/-- `HashMap::insert`: replace the binding of `k` in place if present,
append a fresh binding otherwise. -/
def alInsert {α : Type} (m : List (String × α)) (k : String) (v : α) :
    List (String × α) :=
  match m with
  | [] => [(k, v)]
  | (k2, v2) :: rest =>
      if k2 = k then (k, v) :: rest else (k2, v2) :: alInsert rest k v

/-- Inner mapping of one section: property name → property value. -/
abbrev PropMap := List (String × String)

/-- The output mapping: section name → inner property mapping. -/
abbrev Output := List (String × PropMap)

/-- Translation of `output.entry(sec).or_default().insert(name, val)` of
`src/lib.rs` lines 129–131: look up or create the inner mapping of `sec`,
insert `name → val` into it. -/
def entryInsert (out : Output) (sec nm v : String) : Output :=
  alInsert out sec (alInsert ((alFind out sec).getD []) nm v)

/-! ## Tokenizer, modelled from the spec (grammar file absent from src) -/

/-- Modelled from the spec: the insignificant line whitespace of §4.1
("Leading/trailing whitespace on lines is insignificant"); space, tab and
carriage return (so CRLF line ends behave like LF ones). -/
def isWS (c : Char) : Bool :=
  c = ' ' || c = '\t' || c = '\r'

/-- Strip the whitespace of `isWS` from both ends of a character list. -/
def trimChars (l : List Char) : List Char :=
  ((l.dropWhile isWS).reverse.dropWhile isWS).reverse

/-- Split a character list into its lines at each `'\n'`; always returns at
least one (possibly empty) line. -/
def splitLines : List Char → List (List Char)
  | [] => [[]]
  | c :: rest =>
      match splitLines rest with
      | [] => [[]]
      | l :: ls => if c = '\n' then [] :: l :: ls else (c :: l) :: ls

/-- Split a character list at its first `'='`, returning the parts before
and after it, or `none` when no `'='` occurs. -/
def splitAtEq : List Char → Option (List Char × List Char)
  | [] => none
  | c :: rest =>
      if c = '=' then some ([], rest)
      else
        match splitAtEq rest with
        | none => none
        | some (a, b) => some (c :: a, b)

/-- Modelled from the spec: the `section` rule of §4.1 — `[` + identifier
(no `]` or newline, nonempty) + `]` — applied to the characters after the
opening `[` of a trimmed line.  Anything after the closing `]` or a missing
`]` is a syntax error. -/
def parseSectionBody (rest : List Char) : Except String (List Char) :=
  match rest.reverse with
  | [] => .error "expected closing bracket"
  | last :: revBody =>
      if last = ']' then
        let body := revBody.reverse
        if body = [] then .error "empty section name"
        else if body.any (fun c => c = ']') then .error "unexpected closing bracket"
        else .ok body
      else .error "expected closing bracket"

/-- Modelled from the spec: classification of one line (§4.1).  A blank
line or a comment line (first significant character `;` or `#`) produces no
node; a line whose first significant character is `[` must be a section
header; a remaining line must be a property, identifier (nonempty, no `=`,
`[` or newline) then `=` then the rest of the line trimmed as the value;
anything else is a syntax error. -/
def classifyLine (l : List Char) : Except String (Option Node) :=
  match trimChars l with
  | [] => .ok none
  | c :: rest =>
      if c = ';' || c = '#' then .ok none
      else if c = '[' then
        match parseSectionBody rest with
        | .error e => .error e
        | .ok body => .ok (some ⟨Rule.sec, [String.mk body]⟩)
      else
        match splitAtEq (c :: rest) with
        | none => .error "expected property or section header"
        | some (pre, post) =>
            let nm := trimChars pre
            if nm = [] then .error "empty property name"
            else if nm.any (fun ch => ch = '[') then
              .error "unexpected opening bracket in property name"
            else
              .ok (some ⟨Rule.property, [String.mk nm, String.mk (trimChars post)]⟩)

/-- Classify every line, dropping silent ones, stopping at the first syntax
error (all-or-nothing, §4.1's contract). -/
def collectNodes : List (List Char) → Except String (List Node)
  | [] => .ok []
  | l :: ls =>
      match classifyLine l with
      | .error e => .error e
      | .ok none => collectNodes ls
      | .ok (some n) =>
          match collectNodes ls with
          | .error e => .error e
          | .ok ns => .ok (n :: ns)

/-- Modelled from the spec: the tokenizer (`Ini::parse(Rule::file, _)` over
the absent `ini.pest`).  §4.1: `file` is zero or more lines, each a
section, property, comment or blank, terminated by the end-of-input marker;
success yields the typed nodes in document order followed by the `EOI`
node, failure a syntax diagnostic and no nodes at all. -/
def tokenize (content : String) : Except String (List Node) :=
  match collectNodes (splitLines content.data) with
  | .error e => .error e
  | .ok ns => .ok (ns ++ [⟨Rule.EOI, []⟩])

/-! ## Reducer and public operations, translated from `src/lib.rs` -/

/-- The `INIParser` struct (`src/lib.rs` lines 49–52). -/
structure INIParser where
  output : Output
  deriving DecidableEq, Repr

/-- One iteration of the reducer loop (`src/lib.rs` lines 107–136): state
is (current_section, output).  A `section` node rebinds the current
section to its first capture (`Finished` if the capture is missing); a
`property` node inserts its two captures into the current section's bucket
(`Finished` if either is missing); `EOI` is a no-op.  On any other rule the
source's arm `_ => Err(InIParseError::Unreachable)` (line 134) builds the
error as the value of a match that stands as a statement (`};`, line 135)
with no `?` or `return`, so the value is discarded and the loop goes on
with the state unchanged — as written the arm does not even type-check
against the `()`-typed arms, so no `Unreachable` error can reach a caller. -/
def reduceLine (st : String × Output) (line : Node) :
    Except InIParseError (String × Output) :=
  match line.rule with
  | Rule.sec =>
      match line.inner with
      | [] => .error InIParseError.Finished
      | nm :: _ => .ok (nm, st.2)
  | Rule.property =>
      match line.inner with
      | nm :: v :: _ => .ok (st.1, entryInsert st.2 st.1 nm v)
      | _ => .error InIParseError.Finished
  | Rule.EOI => .ok st
  | _ => .ok st

/-- The reducer loop `for line in ini.into_inner()` of `src/lib.rs`
lines 107–136, threading (current_section, output) and propagating the
first error a `?` raises. -/
def reduceNodes : List Node → String × Output → Except InIParseError (String × Output)
  | [], st => .ok st
  | n :: ns, st =>
      match reduceLine st n with
      | .error e => .error e
      | .ok st2 => reduceNodes ns st2

/-- Translation of `INIParser::parse` (`src/lib.rs` lines 97–137): run the tokenizer,
mapping its failure to `UnsuccessfulParse`; then reduce the nodes starting
from current section `"untagged"` and an empty output. -/
def INIParser.parse (content : String) : Except InIParseError INIParser :=
  match tokenize content with
  | .error e => .error (InIParseError.UnsuccessfulParse e)
  | .ok nodes =>
      match reduceNodes nodes ("untagged", []) with
      | .error e => .error e
      | .ok st => .ok ⟨st.2⟩

/-- Translation of `INIParser::from_string` (`src/lib.rs` lines 55–57):
the spec's `parse_from_text`. -/
def INIParser.from_string (content : String) : Except InIParseError INIParser :=
  INIParser.parse content

/-- Translation of `INIParser::from_file` (`src/lib.rs` lines 69–74): the
spec's `parse_from_path`.  The external collaborator `fs::read_to_string` is a
parameter `readToString` from paths to text or an I/O diagnostic; a read
failure becomes `FileReadError`, a read success is delegated to
`INIParser::parse`. -/
def INIParser.from_file (readToString : String → Except String String)
    (path : String) : Except InIParseError INIParser :=
  match readToString path with
  | .error err => .error (InIParseError.FileReadError err)
  | .ok content => INIParser.parse content

/-- Translation of `INIParser::into_inner` (`src/lib.rs` lines 83–85). -/
def INIParser.into_inner (p : INIParser) : Output :=
  p.output

/-! ## Derived notions used by the statements -/

/-- Two-level lookup in the output mapping: the value of property `n` in
the section `s`, when both exist. -/
def find2 (out : Output) (s n : String) : Option String :=
  (alFind out s).bind (fun inner => alFind inner n)

/-- How many bindings of key `k` an association list holds. -/
def keyCount {α : Type} (m : List (String × α)) (k : String) : Nat :=
  match m with
  | [] => 0
  | (k2, _) :: rest => (if k2 = k then 1 else 0) + keyCount rest k

/-- Prefer the first option when it is set, fall back to the second. -/
def overlay (o d : Option String) : Option String :=
  match o with
  | some w => some w
  | none => d

/-- Follows the spec's words (spec §3 invariants and §8): the value of the
last (latest in document order) property named `n` whose governing section
— the nearest preceding section marker, or `cur` if none precedes — is
`s`.  Later occurrences shadow earlier ones, across repeated section
markers of the same name.  This is the specification-side description of
the output that the reducer's lookup-or-create/insert loop is compared
against. -/
def lastWrite : List Node → String → String → String → Option String
  | [], _, _, _ => none
  | node :: rest, cur, s, n =>
      match node.rule, node.inner with
      | Rule.sec, nm :: _ => lastWrite rest nm s n
      | Rule.property, nm :: v :: _ =>
          overlay (lastWrite rest cur s n)
            (if cur = s ∧ nm = n then some v else none)
      | _, _ => lastWrite rest cur s n

/-- Well-formedness of an output mapping: section keys are unique, and
each section's inner mapping has unique keys and is nonempty. -/
def WFOutput (out : Output) : Prop :=
  (∀ k, keyCount out k ≤ 1) ∧ ∀ p ∈ out, (∀ k, keyCount p.2 k ≤ 1) ∧ p.2 ≠ []

/-! ## Association list lemmas -/

theorem alFind_alInsert_self {α : Type} (m : List (String × α)) (k : String) (v : α) :
    alFind (alInsert m k v) k = some v := by
  induction m with
  | nil => simp [alInsert, alFind]
  | cons p rest ih =>
      obtain ⟨k2, v2⟩ := p
      by_cases h : k2 = k <;> simp [alInsert, alFind, h, ih]

theorem alFind_alInsert_ne {α : Type} (m : List (String × α)) (k k' : String) (v : α)
    (h : k' ≠ k) : alFind (alInsert m k v) k' = alFind m k' := by
  induction m with
  | nil => simp [alInsert, alFind, Ne.symm h]
  | cons p rest ih =>
      obtain ⟨k2, v2⟩ := p
      by_cases h2 : k2 = k <;> simp [alInsert, alFind, h2, ih, Ne.symm h]

theorem alFind_mem {α : Type} {m : List (String × α)} {k : String} {v : α}
    (h : alFind m k = some v) : (k, v) ∈ m := by
  induction m with
  | nil => simp [alFind] at h
  | cons p rest ih =>
      obtain ⟨k2, v2⟩ := p
      by_cases h2 : k2 = k
      · subst h2
        simp [alFind] at h
        simp [h]
      · simp [alFind, h2] at h
        exact List.mem_cons_of_mem _ (ih h)

theorem mem_alInsert {α : Type} {m : List (String × α)} {k : String} {v : α}
    {p : String × α} (h : p ∈ alInsert m k v) : p = (k, v) ∨ p ∈ m := by
  induction m with
  | nil =>
      simp [alInsert] at h
      simp [h]
  | cons q rest ih =>
      obtain ⟨k2, v2⟩ := q
      by_cases h2 : k2 = k
      · simp only [alInsert, if_pos h2, List.mem_cons] at h
        rcases h with h | h
        · exact Or.inl h
        · exact Or.inr (List.mem_cons_of_mem _ h)
      · simp only [alInsert, if_neg h2, List.mem_cons] at h
        rcases h with h | h
        · exact Or.inr (by simp [h])
        · rcases ih h with h3 | h3
          · exact Or.inl h3
          · exact Or.inr (List.mem_cons_of_mem _ h3)

theorem alInsert_ne_nil {α : Type} (m : List (String × α)) (k : String) (v : α) :
    alInsert m k v ≠ [] := by
  cases m with
  | nil => simp [alInsert]
  | cons p rest =>
      obtain ⟨k2, v2⟩ := p
      by_cases h : k2 = k <;> simp [alInsert, h]

theorem keyCount_alInsert_self {α : Type} {m : List (String × α)} {k : String} (v : α)
    (h : keyCount m k ≤ 1) : keyCount (alInsert m k v) k = 1 := by
  induction m with
  | nil => simp [alInsert, keyCount]
  | cons p rest ih =>
      obtain ⟨k2, v2⟩ := p
      by_cases h2 : k2 = k
      · subst h2
        simp [keyCount] at h
        simp [alInsert, keyCount]
        omega
      · simp only [keyCount, if_neg h2, Nat.zero_add] at h
        simp only [alInsert, if_neg h2, keyCount, if_neg h2, Nat.zero_add]
        exact ih h

theorem keyCount_alInsert_ne {α : Type} (m : List (String × α)) (k k' : String) (v : α)
    (h : k' ≠ k) : keyCount (alInsert m k v) k' = keyCount m k' := by
  induction m with
  | nil => simp [alInsert, keyCount, Ne.symm h]
  | cons p rest ih =>
      obtain ⟨k2, v2⟩ := p
      by_cases h2 : k2 = k
      · subst h2
        simp [alInsert, keyCount, Ne.symm h, ih]
      · simp [alInsert, keyCount, h2, ih]

theorem one_le_keyCount_of_mem {α : Type} {m : List (String × α)} {k : String} {v : α}
    (h : (k, v) ∈ m) : 1 ≤ keyCount m k := by
  induction m with
  | nil => simp at h
  | cons p rest ih =>
      rcases List.mem_cons.mp h with h1 | h1
      · rw [← h1]
        simp [keyCount]
      · have := ih h1
        obtain ⟨k2, v2⟩ := p
        simp only [keyCount]
        omega

/-! ## Output well-formedness through the reducer -/

theorem WFOutput_nil : WFOutput [] :=
  ⟨fun k => by simp [keyCount], fun p hp => by simp at hp⟩

theorem WFOutput_entryInsert {out : Output} (h : WFOutput out) (s nm v : String) :
    WFOutput (entryInsert out s nm v) := by
  obtain ⟨h1, h2⟩ := h
  have hbase : ∀ k, keyCount ((alFind out s).getD []) k ≤ 1 := by
    cases hfind : alFind out s with
    | none => intro k; simp [keyCount]
    | some i => intro k; exact (h2 (s, i) (alFind_mem hfind)).1 k
  constructor
  · intro k
    by_cases hk : k = s
    · subst hk
      rw [entryInsert, keyCount_alInsert_self _ (h1 k)]
    · rw [entryInsert, keyCount_alInsert_ne _ _ _ _ hk]
      exact h1 k
  · intro p hp
    rcases mem_alInsert hp with hnew | hold
    · subst hnew
      constructor
      · intro k
        by_cases hk : k = nm
        · subst hk
          rw [keyCount_alInsert_self _ (hbase k)]
        · rw [keyCount_alInsert_ne _ _ _ _ hk]
          exact hbase k
      · exact alInsert_ne_nil _ _ _
    · exact h2 p hold

theorem find2_entryInsert (out : Output) (cur nm v s n : String) :
    find2 (entryInsert out cur nm v) s n =
      if cur = s ∧ nm = n then some v else find2 out s n := by
  by_cases hs : cur = s
  · subst hs
    rw [find2, entryInsert, alFind_alInsert_self]
    simp only [Option.some_bind]
    by_cases hn : nm = n
    · subst hn
      rw [alFind_alInsert_self]
      simp
    · rw [alFind_alInsert_ne _ _ _ _ (fun he => hn he.symm)]
      simp only [hn, and_false, if_false]
      cases hf : alFind out cur with
      | none => simp [find2, hf, alFind]
      | some i => simp [find2, hf]
  · rw [find2, entryInsert, alFind_alInsert_ne _ _ _ _ (fun he => hs he.symm)]
    simp only [hs, false_and, if_false]
    rfl

/-! ## Reducer lemmas -/

theorem overlay_some (w : String) (d : Option String) :
    overlay (some w) d = some w := rfl

theorem overlay_none (d : Option String) : overlay none d = d := rfl

theorem overlay_right_none (o : Option String) : overlay o none = o := by
  cases o <;> rfl

theorem reduceNodes_append (xs ys : List Node) (st : String × Output) :
    reduceNodes (xs ++ ys) st =
      match reduceNodes xs st with
      | .error e => .error e
      | .ok st2 => reduceNodes ys st2 := by
  induction xs generalizing st with
  | nil => simp [reduceNodes]
  | cons n rest ih =>
      simp only [List.cons_append, reduceNodes]
      cases reduceLine st n with
      | error e => simp
      | ok st2 => simp [ih]

theorem reduceLine_cur {cur cur2 : String} {out out2 : Output} {n : Node}
    (hr : n.rule ≠ Rule.sec) (h : reduceLine (cur, out) n = .ok (cur2, out2)) :
    cur2 = cur := by
  obtain ⟨r, inner⟩ := n
  cases r with
  | sec => exact absurd rfl hr
  | property =>
      rcases inner with _ | ⟨nm, _ | ⟨v, tl⟩⟩
      · simp [reduceLine] at h
      · simp [reduceLine] at h
      · simp [reduceLine] at h
        exact h.1.symm
  | file => simp [reduceLine] at h; exact h.1.symm
  | name => simp [reduceLine] at h; exact h.1.symm
  | value => simp [reduceLine] at h; exact h.1.symm
  | EOI => simp [reduceLine] at h; exact h.1.symm

theorem reduceNodes_no_sec_cur {ns : List Node} :
    ∀ {cur out cur' out'}, (∀ node ∈ ns, node.rule ≠ Rule.sec) →
      reduceNodes ns (cur, out) = .ok (cur', out') → cur' = cur := by
  induction ns with
  | nil =>
      intro cur out cur' out' _ h
      simp [reduceNodes] at h
      exact h.1.symm
  | cons n rest ih =>
      intro cur out cur' out' hns h
      simp only [reduceNodes] at h
      cases hline : reduceLine (cur, out) n with
      | error e => rw [hline] at h; simp at h
      | ok st2 =>
          rw [hline] at h
          simp only at h
          obtain ⟨c2, o2⟩ := st2
          have h1 : cur' = c2 := ih (fun node hm => hns node (List.mem_cons_of_mem _ hm)) h
          have h2 : c2 = cur := reduceLine_cur (hns n (List.mem_cons_self _ _)) hline
          exact h1.trans h2

theorem reduceNodes_WF {nodes : List Node} :
    ∀ {cur out cur' out'}, reduceNodes nodes (cur, out) = .ok (cur', out') →
      WFOutput out → WFOutput out' := by
  induction nodes with
  | nil =>
      intro cur out cur' out' h hw
      simp [reduceNodes] at h
      rw [← h.2]
      exact hw
  | cons n rest ih =>
      intro cur out cur' out' h hw
      obtain ⟨r, inner⟩ := n
      simp only [reduceNodes] at h
      cases r with
      | sec =>
          rcases inner with _ | ⟨nm, tl⟩
          · simp [reduceLine] at h
          · simp only [reduceLine] at h
            exact ih h hw
      | property =>
          rcases inner with _ | ⟨nm, _ | ⟨v, tl⟩⟩
          · simp [reduceLine] at h
          · simp [reduceLine] at h
          · simp only [reduceLine] at h
            exact ih h (WFOutput_entryInsert hw cur nm v)
      | file => simp only [reduceLine] at h; exact ih h hw
      | name => simp only [reduceLine] at h; exact ih h hw
      | value => simp only [reduceLine] at h; exact ih h hw
      | EOI => simp only [reduceLine] at h; exact ih h hw

theorem reduceNodes_find2 {nodes : List Node} :
    ∀ {cur out cur' out'}, reduceNodes nodes (cur, out) = .ok (cur', out') →
      ∀ s n, find2 out' s n = overlay (lastWrite nodes cur s n) (find2 out s n) := by
  induction nodes with
  | nil =>
      intro cur out cur' out' h s n
      simp [reduceNodes] at h
      rw [← h.2]
      simp [lastWrite, overlay]
  | cons node rest ih =>
      intro cur out cur' out' h s n
      obtain ⟨r, inner⟩ := node
      simp only [reduceNodes] at h
      cases r with
      | sec =>
          rcases inner with _ | ⟨nm, tl⟩
          · simp [reduceLine] at h
          · simp only [reduceLine] at h
            rw [show lastWrite (⟨Rule.sec, nm :: tl⟩ :: rest) cur s n =
              lastWrite rest nm s n from rfl]
            exact ih h s n
      | property =>
          rcases inner with _ | ⟨nm, _ | ⟨v, tl⟩⟩
          · simp [reduceLine] at h
          · simp [reduceLine] at h
          · simp only [reduceLine] at h
            rw [ih h s n]
            rw [show lastWrite (⟨Rule.property, nm :: v :: tl⟩ :: rest) cur s n =
              overlay (lastWrite rest cur s n)
                (if cur = s ∧ nm = n then some v else none) from rfl]
            cases hlw : lastWrite rest cur s n with
            | some w => rw [overlay_some, overlay_some, overlay_some]
            | none =>
                rw [overlay_none, overlay_none, find2_entryInsert]
                by_cases hc : cur = s ∧ nm = n
                · rw [if_pos hc, if_pos hc, overlay_some]
                · rw [if_neg hc, if_neg hc, overlay_none]
      | file =>
          simp only [reduceLine] at h
          rw [show lastWrite (⟨Rule.file, inner⟩ :: rest) cur s n =
            lastWrite rest cur s n from rfl]
          exact ih h s n
      | name =>
          simp only [reduceLine] at h
          rw [show lastWrite (⟨Rule.name, inner⟩ :: rest) cur s n =
            lastWrite rest cur s n from rfl]
          exact ih h s n
      | value =>
          simp only [reduceLine] at h
          rw [show lastWrite (⟨Rule.value, inner⟩ :: rest) cur s n =
            lastWrite rest cur s n from rfl]
          exact ih h s n
      | EOI =>
          simp only [reduceLine] at h
          rw [show lastWrite (⟨Rule.EOI, inner⟩ :: rest) cur s n =
            lastWrite rest cur s n from rfl]
          exact ih h s n

theorem parse_ok_reduce {content : String} {nodes : List Node} {p : INIParser}
    (htok : tokenize content = .ok nodes)
    (h : INIParser.parse content = .ok p) :
    ∃ cur', reduceNodes nodes ("untagged", []) = .ok (cur', p.output) := by
  unfold INIParser.parse at h
  rw [htok] at h
  simp only at h
  cases hred : reduceNodes nodes ("untagged", []) with
  | error e => rw [hred] at h; simp at h
  | ok st =>
      rw [hred] at h
      simp only at h
      obtain ⟨c1, o1⟩ := st
      have h2 : (⟨o1⟩ : INIParser) = p := Except.ok.inj h
      refine ⟨c1, ?_⟩
      rw [← h2]

theorem parse_WF {content : String} {p : INIParser}
    (h : INIParser.parse content = .ok p) : WFOutput p.output := by
  cases htok : tokenize content with
  | error e =>
      unfold INIParser.parse at h
      rw [htok] at h
      simp at h
  | ok nodes =>
      obtain ⟨cur', hred⟩ := parse_ok_reduce htok h
      exact reduceNodes_WF hred WFOutput_nil

/-! ## Claims -/

/-- C1: the claim says that on a node kind other than section, property or
end-of-input the reducer makes `parse` return the `Unreachable`
(InvariantViolation) error to the caller, propagated immediately and never
silently swallowed.  The code does not do this: the arm
`_ => Err(InIParseError::Unreachable)` (`src/lib.rs` line 134) builds the
error only as the value of a `match` that stands as a statement (`};`,
line 135), with no `?` and no `return`, so the value is dropped and the
loop continues — indeed as written the arm's `Result` type is incompatible
with the other arms' `()` type, so the code cannot return it.  Here the
reducer consumes a `name` node, a kind the grammar never yields at top
level, and still finishes with success and an unchanged state: no
`Unreachable` error reaches the caller. -/
theorem C1_unreachable_error_is_discarded :
    reduceNodes [⟨Rule.name, []⟩, ⟨Rule.EOI, []⟩] ("untagged", []) =
      .ok ("untagged", []) := rfl

/-- C2: on input text that does not conform to the grammar,
`parse_from_text` (`from_string`) returns `UnsuccessfulParse` and no
mapping; a success with a mapping happens only when the whole document
tokenizes; and the concrete malformed input `"[unclosed"` (missing `]`)
yields the syntax error. -/
theorem C2_syntax_error_is_all_or_nothing :
    (∀ content e, tokenize content = .error e →
        INIParser.from_string content =
          .error (InIParseError.UnsuccessfulParse e)) ∧
    (∀ content p, INIParser.from_string content = .ok p →
        ∃ nodes, tokenize content = .ok nodes) ∧
    INIParser.from_string "[unclosed" =
      .error (InIParseError.UnsuccessfulParse "expected closing bracket") := by
  refine ⟨?_, ?_, rfl⟩
  · intro content e h
    unfold INIParser.from_string INIParser.parse
    rw [h]
  · intro content p h
    unfold INIParser.from_string INIParser.parse at h
    cases htok : tokenize content with
    | error e => rw [htok] at h; simp at h
    | ok nodes => exact ⟨nodes, rfl⟩

/-- Witness for C2: a concrete malformed document takes the syntax-error
branch. -/
theorem C2_witness :
    INIParser.from_string "[oops" =
      .error (InIParseError.UnsuccessfulParse "expected closing bracket") :=
  C2_syntax_error_is_all_or_nothing.1 "[oops" "expected closing bracket" rfl

/-- C3: in every valid document, a property that no section header
precedes lands in the default section `"untagged"`; and parsing
`"key = value"` with no preceding header yields exactly the mapping
untagged → (key → value). -/
theorem C3_headerless_properties_land_in_untagged :
    (∀ content pre nm v extra post out,
        tokenize content = .ok (pre ++ ⟨Rule.property, nm :: v :: extra⟩ :: post) →
        INIParser.parse content = .ok out →
        (∀ node ∈ pre, node.rule ≠ Rule.sec) →
        (find2 out.output "untagged" nm).isSome = true) ∧
    INIParser.from_string "key = value" =
      .ok ⟨[("untagged", [("key", "value")])]⟩ := by
  refine ⟨?_, rfl⟩
  intro content pre nm v extra post out htok hparse hpre
  obtain ⟨cur', hred⟩ := parse_ok_reduce htok hparse
  rw [reduceNodes_append] at hred
  cases hpre2 : reduceNodes pre ("untagged", []) with
  | error e => rw [hpre2] at hred; simp at hred
  | ok st1 =>
      rw [hpre2] at hred
      simp only at hred
      obtain ⟨cur1, out1⟩ := st1
      have hcur1 : cur1 = "untagged" := reduceNodes_no_sec_cur hpre hpre2
      subst hcur1
      simp only [reduceNodes, reduceLine] at hred
      have hmaster := reduceNodes_find2 hred "untagged" nm
      have hbase : find2 (entryInsert out1 "untagged" nm v) "untagged" nm = some v := by
        rw [find2_entryInsert]
        simp
      rw [hbase] at hmaster
      rw [hmaster]
      cases lastWrite post "untagged" "untagged" nm <;> simp [overlay]

/-- Witness for C3: the document "a = b" with the empty prefix. -/
theorem C3_witness :
    (find2 [("untagged", [("a", "b")])] "untagged" "a").isSome = true :=
  C3_headerless_properties_land_in_untagged.1 "a = b" [] "a" "b" []
    [⟨Rule.EOI, []⟩] ⟨[("untagged", [("a", "b")])]⟩ rfl rfl (by simp)

/-- C4: whenever some property write reaches section `s` and name `n` --
in particular whenever two properties share a name in one section -- the
output holds `n` exactly once in the (unique) inner mapping of `s`, and
its value is the value of the last occurrence in document order
(`lastWrite`). -/
theorem C4_duplicate_key_last_occurrence_wins :
    ∀ content nodes out s n v,
      tokenize content = .ok nodes →
      INIParser.parse content = .ok out →
      lastWrite nodes "untagged" s n = some v →
      (∃ inner, alFind out.output s = some inner ∧ keyCount inner n = 1) ∧
      find2 out.output s n = some v := by
  intro content nodes out s n v htok hparse hlast
  obtain ⟨cur', hred⟩ := parse_ok_reduce htok hparse
  have hmaster := reduceNodes_find2 hred s n
  rw [hlast, overlay_some] at hmaster
  have hwf := parse_WF hparse
  cases hfo : alFind out.output s with
  | none => rw [find2, hfo] at hmaster; simp at hmaster
  | some inner =>
      rw [find2, hfo, Option.some_bind] at hmaster
      have hle : keyCount inner n ≤ 1 := (hwf.2 (s, inner) (alFind_mem hfo)).1 n
      have hge := one_le_keyCount_of_mem (alFind_mem hmaster)
      refine ⟨⟨inner, rfl, by omega⟩, ?_⟩
      rw [find2, hfo, Option.some_bind]
      exact hmaster

/-- Witness for C4: the document "a = 1\na = 2" keeps only the last value
"2" for key "a" in the default section. -/
theorem C4_witness :
    (∃ inner, alFind [("untagged", [("a", "2")])] "untagged" = some inner ∧
        keyCount inner "a" = 1) ∧
    find2 [("untagged", [("a", "2")])] "untagged" "a" = some "2" :=
  C4_duplicate_key_last_occurrence_wins "a = 1\na = 2"
    [⟨Rule.property, ["a", "1"]⟩, ⟨Rule.property, ["a", "2"]⟩, ⟨Rule.EOI, []⟩]
    ⟨[("untagged", [("a", "2")])]⟩ "untagged" "a" "2" rfl rfl rfl

/-- C5: whenever a section `s` received at least one property -- in
particular when its header appears more than once -- the output holds a
single entry for `s`, and its inner mapping is exactly the merge of the
properties under all occurrences of the header with the last writer
winning per key: every lookup in it equals `lastWrite`. -/
theorem C5_repeated_section_headers_merge :
    ∀ content nodes out s n v,
      tokenize content = .ok nodes →
      INIParser.parse content = .ok out →
      lastWrite nodes "untagged" s n = some v →
      keyCount out.output s = 1 ∧
      ∀ n2, find2 out.output s n2 = lastWrite nodes "untagged" s n2 := by
  intro content nodes out s n v htok hparse hlast
  obtain ⟨cur', hred⟩ := parse_ok_reduce htok hparse
  have hwf := parse_WF hparse
  have hall : ∀ n2, find2 out.output s n2 = lastWrite nodes "untagged" s n2 := by
    intro n2
    have hm := reduceNodes_find2 hred s n2
    rw [show find2 [] s n2 = none from rfl, overlay_right_none] at hm
    exact hm
  refine ⟨?_, hall⟩
  have hv := hall n
  rw [hlast] at hv
  cases hfo : alFind out.output s with
  | none => rw [find2, hfo] at hv; simp at hv
  | some inner =>
      have hge := one_le_keyCount_of_mem (alFind_mem hfo)
      have hle := hwf.1 s
      omega

/-- Witness for C5: the document "[s]\na = 1\n[s]\nb = 2\na = 9\n" merges
both occurrences of [s] into one entry. -/
theorem C5_witness :
    keyCount [("s", [("a", "9"), ("b", "2")])] "s" = 1 ∧
    find2 [("s", [("a", "9"), ("b", "2")])] "s" "b" =
      lastWrite [⟨Rule.sec, ["s"]⟩, ⟨Rule.property, ["a", "1"]⟩,
        ⟨Rule.sec, ["s"]⟩, ⟨Rule.property, ["b", "2"]⟩,
        ⟨Rule.property, ["a", "9"]⟩, ⟨Rule.EOI, []⟩] "untagged" "s" "b" :=
  ⟨(C5_repeated_section_headers_merge "[s]\na = 1\n[s]\nb = 2\na = 9\n"
      [⟨Rule.sec, ["s"]⟩, ⟨Rule.property, ["a", "1"]⟩, ⟨Rule.sec, ["s"]⟩,
        ⟨Rule.property, ["b", "2"]⟩, ⟨Rule.property, ["a", "9"]⟩,
        ⟨Rule.EOI, []⟩]
      ⟨[("s", [("a", "9"), ("b", "2")])]⟩ "s" "a" "9" rfl rfl rfl).1,
   (C5_repeated_section_headers_merge "[s]\na = 1\n[s]\nb = 2\na = 9\n"
      [⟨Rule.sec, ["s"]⟩, ⟨Rule.property, ["a", "1"]⟩, ⟨Rule.sec, ["s"]⟩,
        ⟨Rule.property, ["b", "2"]⟩, ⟨Rule.property, ["a", "9"]⟩,
        ⟨Rule.EOI, []⟩]
      ⟨[("s", [("a", "9"), ("b", "2")])]⟩ "s" "a" "9" rfl rfl rfl).2 "b"⟩

/-- C6: parsing the empty string succeeds and returns an empty output
mapping with no sections. -/
theorem C6_empty_string_gives_empty_mapping :
    INIParser.from_string "" = .ok ⟨[]⟩ := rfl

/-- C7: parsing the user/name/email document yields exactly one section
"user" whose inner mapping is exactly name → John Doe,
email → johndoe@example.com. -/
theorem C7_user_document_shape :
    INIParser.from_string "[user]\nname = John Doe\nemail = johndoe@example.com\n" =
      .ok ⟨[("user", [("name", "John Doe"), ("email", "johndoe@example.com")])]⟩ := rfl

/-- C8: for every path, `parse_from_path` (`from_file`) turns a failed
read into a `FileReadError` carrying the underlying diagnostic text — an
error distinct from the `UnsuccessfulParse` syntax error — and on a
successful read returns exactly `parse_from_text` (`from_string`) of the
file's contents. -/
theorem C8_from_file_delegates :
    ∀ readToString path,
      (∀ e, readToString path = .error e →
          INIParser.from_file readToString path =
            .error (InIParseError.FileReadError e) ∧
          ∀ m, InIParseError.FileReadError e ≠ InIParseError.UnsuccessfulParse m) ∧
      (∀ content, readToString path = .ok content →
          INIParser.from_file readToString path =
            INIParser.from_string content) := by
  intro readToString path
  constructor
  · intro e h
    constructor
    · unfold INIParser.from_file
      rw [h]
    · intro m hne
      exact InIParseError.noConfusion hne
  · intro content h
    unfold INIParser.from_file INIParser.from_string
    rw [h]

/-- Witness for C8: a failing read and a succeeding read on the path
"config.ini". -/
theorem C8_witness :
    INIParser.from_file (fun _ => .error "no such file") "config.ini" =
      .error (InIParseError.FileReadError "no such file") ∧
    INIParser.from_file (fun _ => .ok "k = v") "config.ini" =
      INIParser.from_string "k = v" :=
  ⟨((C8_from_file_delegates (fun _ => .error "no such file") "config.ini").1
      "no such file" rfl).1,
   (C8_from_file_delegates (fun _ => .ok "k = v") "config.ini").2 "k = v" rfl⟩

/-- C9: processing a section node only rebinds the current-section state
and leaves the output untouched, and consequently every section present in
a successful parse's output has a nonempty inner mapping (a header
followed by no properties produces no entry). -/
theorem C9_section_node_creates_no_entry :
    (∀ cur out nm rest,
        reduceLine (cur, out) ⟨Rule.sec, nm :: rest⟩ = .ok (nm, out)) ∧
    (∀ content p e, INIParser.parse content = .ok p → e ∈ p.output →
        e.2 ≠ []) := by
  refine ⟨fun cur out nm rest => rfl, ?_⟩
  intro content p e hparse hmem
  exact ((parse_WF hparse).2 e hmem).2

/-- Witness for C9: a concrete section node leaves the output empty, and
the document "[empty]\n[a]\nx = 1" has only the nonempty section "a". -/
theorem C9_witness :
    reduceLine ("untagged", []) ⟨Rule.sec, ["user"]⟩ = .ok ("user", []) ∧
    ([("x", "1")] : PropMap) ≠ [] :=
  ⟨C9_section_node_creates_no_entry.1 "untagged" [] "user" [],
   C9_section_node_creates_no_entry.2 "[empty]\n[a]\nx = 1"
     ⟨[("a", [("x", "1")])]⟩ ("a", [("x", "1")]) rfl (by simp)⟩

/-- C10: the default name "untagged" is not reserved: an explicit
[untagged] header merely rebinds the current section to the same name the
reducer starts with — processing it from any state is identical to
continuing in "untagged" — so properties before any header and properties
under an explicit [untagged] header merge indistinguishably into the
single output entry keyed "untagged". -/
theorem C10_untagged_header_not_reserved :
    (∀ extra rest cur out,
        reduceNodes (⟨Rule.sec, "untagged" :: extra⟩ :: rest) (cur, out) =
          reduceNodes rest ("untagged", out)) ∧
    INIParser.from_string "a = 1\n[untagged]\nb = 2\n" =
      .ok ⟨[("untagged", [("a", "1"), ("b", "2")])]⟩ :=
  ⟨fun _ _ _ _ => rfl, rfl⟩
